import Mathlib

/-!
Verification development for the ready-to-ship static project validator.

The JavaScript source is embedded shallowly: text is modelled as `List Char`
(obtained from Lean `String`s via `.data`), the regex-based extractors are
modelled as deterministic scanners that reproduce the leftmost-match /
greedy-class semantics of the concrete regular expressions used by the code,
and the per-module validators are modelled as pure functions from their file
inputs to issue/warning lists.  Console printing, globbing and file reads are
external collaborators and are represented by the validators' parameters.
-/

/-! ## Character and list-of-char utilities -/

/-- Whitespace characters recognised by the JavaScript regex class `\s` and by
`String.prototype.trim` (restricted to the ASCII range used throughout). -/
def isWsC (c : Char) : Bool :=
  c == ' ' || c == '\t' || c == '\n' || c == '\r' || c == Char.ofNat 11 || c == Char.ofNat 12

/-- Quote characters of the regex class matching a single, double or back quote. -/
def isQuoteC (c : Char) : Bool :=
  c == '\'' || c == '"' || c == Char.ofNat 96

/-- Lower-case a character sequence, as `toLowerCase` does on ASCII text. -/
def lowerL (l : List Char) : List Char := l.map Char.toLower

/-- Upper-case a character sequence, as `toUpperCase` does on ASCII text. -/
def upperL (l : List Char) : List Char := l.map Char.toUpper

/-- Boolean prefix test on character lists. -/
def isPrefixL : List Char → List Char → Bool
  | [], _ => true
  | _ :: _, [] => false
  | a :: asTail, b :: bs => a == b && isPrefixL asTail bs

/-- Boolean substring test on character lists, the model of
`String.prototype.includes` and of an unanchored regex literal. -/
def containsL : List Char → List Char → Bool
  | [], p => p.isEmpty
  | c :: t, p => isPrefixL p (c :: t) || containsL t p

/-- Split a character sequence at newline characters, the model of
`code.split('\n')`. -/
def splitNL : List Char → List (List Char)
  | [] => [[]]
  | c :: t =>
    if c == '\n' then [] :: splitNL t
    else
      match splitNL t with
      | h :: r => (c :: h) :: r
      | [] => [[c]]

/-- Join lines with newline characters, the model of `lines.join('\n')`. -/
def joinNL : List (List Char) → List Char
  | [] => []
  | [x] => x
  | x :: r => x ++ '\n' :: joinNL r

/-- Drop leading whitespace. -/
def trimLeftL (l : List Char) : List Char := l.dropWhile isWsC

/-- Drop trailing whitespace. -/
def trimRightL (l : List Char) : List Char := (l.reverse.dropWhile isWsC).reverse

/-- The model of `String.prototype.trim`. -/
def jsTrimL (l : List Char) : List Char := trimRightL (trimLeftL l)

/-- Numeric value of a run of decimal digits, the model of `parseInt` applied
to the digits captured by `(\d+)`. -/
def natOfDigits (l : List Char) : Nat :=
  l.foldl (fun n c => n * 10 + (c.toNat - 48)) 0

/-- ASCII letter test, the model of the regex class `[a-z]` under the `i` flag. -/
def isLetterC (c : Char) : Bool :=
  ('a' ≤ c && c ≤ 'z') || ('A' ≤ c && c ≤ 'Z')

/-! ## `.env` parsing (`src/utils/fileHelpers.js`, `parseEnvFile`) -/

/-- Strip one layer of surrounding quotes from a value, the model of
`replace(/^["']|["']$/g, '')`: one leading and one trailing single or double
quote are removed, independently of each other. -/
def stripQuotes (l : List Char) : List Char :=
  let t :=
    match l with
    | c :: r => if c == '"' || c == '\'' then r else c :: r
    | [] => []
  match t.getLast? with
  | some c => if c == '"' || c == '\'' then t.dropLast else t
  | none => t

/-- Parse one line of a `.env` file.  A line is skipped when it trims to the
empty string, when it trims to a `#` comment, or when it does not match
`^([^=]+)=(.*)$` (no `=`, an empty key part, or a newline character after the
first `=`, which `.` cannot match).  The captured key is trimmed and the
captured value is trimmed and then quote-stripped, exactly as in the source. -/
def parseLineL (line : List Char) : Option (List Char × List Char) :=
  let t := jsTrimL line
  if t.isEmpty then none
  else if t.head? == some '#' then none
  else
    let pre := t.takeWhile (fun c => !(c == '='))
    let rest := t.dropWhile (fun c => !(c == '='))
    match rest with
    | '=' :: val =>
      if pre.isEmpty then none
      else if val.any (fun c => c == '\n') then none
      else some (jsTrimL pre, stripQuotes (jsTrimL val))
    | _ => none

/-- Assignment into a JavaScript object used as a map: an existing key keeps
its position and receives the new value, a new key is appended. -/
def envSetL (m : List (List Char × List Char)) (k v : List Char) :
    List (List Char × List Char) :=
  if m.any (fun p => p.1 = k) then
    m.map (fun p => if p.1 = k then (k, v) else p)
  else m ++ [(k, v)]

/-- One iteration of the `parseEnvFile` loop: a parsed line is assigned into
the map, a skipped line leaves it unchanged. -/
def envStepL (m : List (List Char × List Char)) (line : List Char) :
    List (List Char × List Char) :=
  match parseLineL line with
  | some (k, v) => envSetL m k v
  | none => m

/-- The accumulation loop of `parseEnvFile` over the split lines. -/
def parseEnvLinesL (lines : List (List Char)) : List (List Char × List Char) :=
  lines.foldl envStepL []

/-- First-match association-list lookup on character-list keys; because
`envSetL` keeps keys unique this is exactly JavaScript property lookup. -/
def lookupL : List (List Char × List Char) → List Char → Option (List Char)
  | [], _ => none
  | (a, b) :: t, k => if a = k then some b else lookupL t k

/-- The model of `parseEnvFile` on a whole file content. -/
def parseEnvFile (content : String) : List (String × String) :=
  (parseEnvLinesL (splitNL content.data)).map (fun p => (⟨p.1⟩, ⟨p.2⟩))

/-- A line that contributes nothing to the parse: blank after trimming, or a
`#` comment. -/
def ignorableLine (l : List Char) : Bool :=
  (jsTrimL l).isEmpty || ((jsTrimL l).head? == some '#')

/-- Modelled from the spec: the value of the last occurrence of a key among
the parsed lines, used to compare the parser against the sentence
"when the same key occurs on multiple lines the value from the last
occurrence wins". -/
def lastStepL (k : List Char) (acc : Option (List Char)) (line : List Char) :
    Option (List Char) :=
  match parseLineL line with
  | some (k', v) => if k' = k then some v else acc
  | none => acc

/-- Modelled from the spec: the whole-lines fold of `lastStepL`. -/
def lastOccurrenceValue (lines : List (List Char)) (k : List Char) : Option (List Char) :=
  lines.foldl (lastStepL k) none

/-! ## Route extraction (`src/utils/parseHelpers.js`, `extractRoutes`)

The source applies three global regexes of the shape
`<head>.(get|post|put|delete|patch)\s*\(['"x]([^'"x]+)['"x]` (with `x` the
back quote) and pushes every match of every pattern, in pattern order.  The
first two patterns are textually identical, so every `app`/`router` route is
pushed twice. -/

/-- A route record: upper-cased method, the literal quoted path, and the
1-based line of the match start. -/
structure Route where
  method : String
  path : String
  line : Nat
deriving DecidableEq

/-- Upper-case a string, the model of `toUpperCase` on ASCII verbs. -/
def upperS (s : String) : String := ⟨upperL s.data⟩

/-- First alternative of an ordered alternation that is a prefix of the input,
returning the matched string. -/
def firstPrefixOf (cands : List String) (l : List Char) : Option String :=
  cands.find? (fun c => isPrefixL c.data l)

/-- The HTTP verbs of the route regexes, in alternation order. -/
def routeVerbs : List String := ["get", "post", "put", "delete", "patch"]

/-- Attempt the route regex at the current position.  Returns the upper-cased
method, the captured path, and the total length of the match.  Character
classes of the regex are pairwise disjoint at each boundary, so greedy
matching is deterministic and this scanner reproduces the regex exactly. -/
def tryRouteAt (heads : List String) (l : List Char) : Option (String × String × Nat) :=
  match firstPrefixOf heads l with
  | none => none
  | some h =>
    let l1 := l.drop h.length
    match firstPrefixOf routeVerbs l1 with
    | none => none
    | some vb =>
      let l2 := l1.drop vb.length
      let w := (l2.takeWhile isWsC).length
      let l3 := l2.drop w
      match l3 with
      | '(' :: l4 =>
        match l4 with
        | q :: l5 =>
          if isQuoteC q then
            let p := l5.takeWhile (fun c => !isQuoteC c)
            if p.isEmpty then none
            else
              match l5.drop p.length with
              | c2 :: _ =>
                if isQuoteC c2 then
                  some (upperS vb, ⟨p⟩, h.length + vb.length + w + 3 + p.length)
                else none
              | [] => none
          else none
        | [] => none
      | _ => none

/-- Fuel-indexed scan loop of a single global regex: leftmost matches taken
non-overlapping, resuming after each match, carrying the 1-based line number
of the current position. -/
def scanRoutesF (heads : List String) : Nat → List Char → Nat → List Route
  | 0, _, _ => []
  | _ + 1, [], _ => []
  | fuel + 1, c :: t, ln =>
    match tryRouteAt heads (c :: t) with
    | some (m, p, len) =>
      ⟨m, p, ln⟩ ::
        scanRoutesF heads fuel (List.drop (len - 1) t)
          (ln + (((c :: t).take len).countP (fun a => a == '\n')))
    | none => scanRoutesF heads fuel t (ln + (if c == '\n' then 1 else 0))

/-- All matches of one route pattern over a text, with line numbers. -/
def scanRoutes (heads : List String) (l : List Char) : List Route :=
  scanRoutesF heads l.length l 1

/-- The model of `extractRoutes`: the three patterns applied in order, each
contributing all of its matches; the first two patterns are identical. -/
def extractRoutes (code : String) : List Route :=
  scanRoutes ["app.", "router."] code.data
    ++ scanRoutes ["app.", "router."] code.data
    ++ scanRoutes ["Route."] code.data

/-! ## Auth-context check (`src/utils/parseHelpers.js`, `hasAuthMiddleware`) -/

/-- The auth-flavored identifiers of the first pattern, lower-cased (the
pattern carries the `i` flag). -/
def authTokens : List String :=
  ["authenticate", "auth", "jwt", "verifytoken", "requireauth", "isauthenticated"]

/-- Occurrence of `auth` after the current position with no intervening
newline, the model of the `.*auth` tail of `/middleware.*auth/i` (`.` does not
match a newline). Operates on lower-cased text. -/
def authBeforeNL : List Char → Bool
  | [] => false
  | c :: t =>
    isPrefixL "auth".data (c :: t) || (!(c == '\n') && authBeforeNL t)

/-- The model of `/middleware.*auth/i` over lower-cased text: some occurrence
of `middleware` followed on the same line by `auth`. -/
def mwAuthScan : List Char → Bool
  | [] => false
  | c :: t =>
    (isPrefixL "middleware".data (c :: t) && authBeforeNL ((c :: t).drop 10))
      || mwAuthScan t

/-- The disjunction of the three auth patterns applied to a context string:
the identifier alternation and `/middleware.*auth/` carry the `i` flag, the
`passport.authenticate` literal does not. -/
def authPat (ctx : List Char) : Bool :=
  authTokens.any (fun t => containsL (lowerL ctx) t.data)
    || containsL ctx "passport.authenticate".data
    || mwAuthScan (lowerL ctx)

/-- The context window of the source: `lines.slice(Math.max(0, idx - 3), idx + 3)`,
that is 0-based lines `idx - 3` (clamped) up to exclusive `idx + 3` — 1-based
lines `idx - 2` through `idx + 3`. -/
def sliceCtx (lines : List (List Char)) (idx : Nat) : List (List Char) :=
  (lines.drop (idx - 3)).take (idx + 3 - (idx - 3))

/-- The model of `hasAuthMiddleware code routeIndex`.  (The `routeLine` local
of the source is computed but never used and is omitted.) -/
def hasAuthMiddleware (code : String) (routeIndex : Nat) : Bool :=
  authPat (joinNL (sliceCtx (splitNL code.data) routeIndex))

/-- Modelled from the spec: the five-line window claimed by the specification,
two lines before the target through two lines after it (0-based slice
`[idx - 3, idx + 2)`), with the same three patterns applied to it. -/
def claimedAuthCheck5 (code : String) (idx : Nat) : Bool :=
  authPat (joinNL ((splitNL code.data).drop (idx - 3) |>.take (idx + 2 - (idx - 3))))

/-- Occurrence of `middleware` followed anywhere later by `auth`, on
lower-cased text — the spec's "middleware followed eventually by auth",
without the same-line restriction of the source regex. -/
def mwEventually : List Char → Bool
  | [] => false
  | c :: t =>
    (isPrefixL "middleware".data (c :: t) && containsL ((c :: t).drop 10) "auth".data)
      || mwEventually t

/-- Modelled from the spec: the auth-context disjunction as worded by the
specification — an auth-flavored identifier, a passport.authenticate call, or
"middleware" followed eventually by "auth", all case-insensitive. -/
def specAuthPat (ctx : List Char) : Bool :=
  authTokens.any (fun t => containsL (lowerL ctx) t.data)
    || containsL (lowerL ctx) "passport.authenticate".data
    || mwEventually (lowerL ctx)

/-- Modelled from the spec: the spec-worded auth-context predicate applied to
the corrected six-line window of the source. -/
def specAuthCheck6 (code : String) (idx : Nat) : Bool :=
  specAuthPat (joinNL (sliceCtx (splitNL code.data) idx))

/-! ## Sensitive-route classification (`src/modules/auth.js`, `isSensitiveRoute`) -/

/-- The unanchored sensitive-path fragments, lower-cased (all the source
patterns carry the `i` flag). -/
def sensContains : List String :=
  ["/users", "/profile", "/settings", "/account", "/dashboard", "/delete",
   "/update", "/create", "/edit", "/password", "/auth/change"]

/-- One of the versioned-API keywords occurring after the current position
with no intervening newline, the model of the `.*(?:user|admin|auth|profile|settings)`
tail on lower-cased text. -/
def sensWordBeforeNL : List Char → Bool
  | [] => false
  | c :: t =>
    (["user", "admin", "auth", "profile", "settings"].any
        (fun w => isPrefixL w.data (c :: t)))
      || (!(c == '\n') && sensWordBeforeNL t)

/-- The model of `/\/api\/v\d+\/.*(?:user|admin|auth|profile|settings)/i` on
lower-cased text. -/
def apiVSens : List Char → Bool
  | [] => false
  | c :: t =>
    (if isPrefixL "/api/v".data (c :: t) then
      (let r := (c :: t).drop 6
       let ds := r.takeWhile Char.isDigit
       if ds.isEmpty then false
       else
         match r.drop ds.length with
         | '/' :: r2 => sensWordBeforeNL r2
         | _ => false)
     else false)
      || apiVSens t

/-- The model of `isSensitiveRoute`: the ordered list of path-shape patterns
(two anchored `^` patterns, eleven unanchored fragments, and the versioned-API
pattern), all case-insensitive. -/
def isSensitiveRoute (p : String) : Bool :=
  isPrefixL "/admin".data (lowerL p.data)
    || isPrefixL "/api/admin".data (lowerL p.data)
    || sensContains.any (fun t => containsL (lowerL p.data) t.data)
    || apiVSens (lowerL p.data)

/-! ## JWT expiry extraction (`src/utils/parseHelpers.js`, `extractJWTExpiry`) -/

/-- Match the tail `\s*[:=]\s*['"x]?(\d+)\s*([a-z]+)` (with `x` the back
quote, letters case-insensitive) directly after a matched key, returning the
captured value and unit.  As in the regex, a consumed opening quote must be
followed by a digit — otherwise backtracking to the empty quote also fails on
the quote character itself. -/
def afterKeyJwt (l : List Char) : Option (Nat × List Char) :=
  let a := l.drop ((l.takeWhile isWsC).length)
  match a with
  | c :: r =>
    if c == ':' || c == '=' then
      let b := r.drop ((r.takeWhile isWsC).length)
      let b2 :=
        match b with
        | q :: r2 => if isQuoteC q then r2 else q :: r2
        | [] => []
      let ds := b2.takeWhile Char.isDigit
      if ds.isEmpty then none
      else
        let r3 := b2.drop ds.length
        let r4 := r3.drop ((r3.takeWhile isWsC).length)
        let us := r4.takeWhile isLetterC
        if us.isEmpty then none else some (natOfDigits ds, us)
    else none
  | [] => none

/-- Match the tail `\s*[:=]\s*(\d+)` of the unit-less second pattern. -/
def afterKeyNum (l : List Char) : Option Nat :=
  let a := l.drop ((l.takeWhile isWsC).length)
  match a with
  | c :: r =>
    if c == ':' || c == '=' then
      let b := r.drop ((r.takeWhile isWsC).length)
      let ds := b.takeWhile Char.isDigit
      if ds.isEmpty then none else some (natOfDigits ds)
    else none
  | [] => none

/-- Leftmost match of a value-and-unit JWT pattern: the key (given
lower-cased) is matched case-insensitively at each position in turn. -/
def scanKeyUnit (key : String) : List Char → Option (Nat × List Char)
  | [] => none
  | c :: t =>
    match
      (if isPrefixL key.data (lowerL (c :: t)) then afterKeyJwt ((c :: t).drop key.length)
       else none)
    with
    | some r => some r
    | none => scanKeyUnit key t

/-- Leftmost match of the unit-less JWT pattern. -/
def scanKeyNum (key : String) : List Char → Option Nat
  | [] => none
  | c :: t =>
    match
      (if isPrefixL key.data (lowerL (c :: t)) then afterKeyNum ((c :: t).drop key.length)
       else none)
    with
    | some r => some r
    | none => scanKeyNum key t

/-- The unit-conversion chain of `extractJWTExpiry`, applied to the
lower-cased unit token. -/
def convertUnitL (u : List Char) (v : Nat) : Nat :=
  if containsL u "year".data || u = "y".data then v * 365 * 24 * 60 * 60
  else if containsL u "month".data || u = "m".data then v * 30 * 24 * 60 * 60
  else if containsL u "day".data || u = "d".data then v * 24 * 60 * 60
  else if containsL u "hour".data || u = "h".data then v * 60 * 60
  else if containsL u "minute".data || u = "min".data then v * 60
  else v

/-- The model of `extractJWTExpiry`: the three patterns are tried in order
over the whole text, and the first pattern with a match anywhere supplies the
captured value and unit (the unit-less pattern defaults the unit to `s`). -/
def extractJWTExpiry (code : String) : Option Nat :=
  match scanKeyUnit "expiresin" code.data with
  | some (v, us) => some (convertUnitL (lowerL us) v)
  | none =>
    match scanKeyNum "expiresin" code.data with
    | some v => some (convertUnitL "s".data v)
    | none =>
      match scanKeyUnit "jwt_expiry" code.data with
      | some (v, us) => some (convertUnitL (lowerL us) v)
      | none => none

/-- The model of `formatDuration` (`src/modules/auth.js`). -/
def formatDuration (s : Nat) : String :=
  if s < 60 then toString s ++ " seconds"
  else if s < 3600 then toString (s / 60) ++ " minutes"
  else if s < 86400 then toString (s / 3600) ++ " hours"
  else if s < 2592000 then toString (s / 86400) ++ " days"
  else if s < 31536000 then toString (s / 2592000) ++ " months"
  else toString (s / 31536000) ++ " years"

/-- The per-file JWT-expiry check of the auth validator: expiry over one year
is an issue, expiry over seven days is a warning, otherwise nothing; the pair
is (issues, warnings). -/
def jwtAuthCheck (jwtExpiry : Option Nat) : List String × List String :=
  match jwtExpiry with
  | none => ([], [])
  | some e =>
    if e > 365 * 24 * 60 * 60 then
      (["JWT expiry too long: " ++ formatDuration e ++ " (recommended: < 7 days)"], [])
    else if e > 7 * 24 * 60 * 60 then
      ([], ["JWT expiry is " ++ formatDuration e ++ " (recommended: < 7 days)"])
    else ([], [])

/-! ## Auth validator route loop (`src/modules/auth.js`, `validate`) -/

/-- The routes of a file that the auth validator flags: sensitive path and no
auth context around the route's line. -/
def authVulnList (code : String) : List Route :=
  (extractRoutes code).filter
    (fun r => isSensitiveRoute r.path && !hasAuthMiddleware code r.line)

/-- The missing-auth issue strings pushed for one file (the file name shown is
the path made relative to the project root by the caller). -/
def authIssues (code file : String) : List String :=
  (authVulnList code).map
    (fun r => "Route " ++ r.method ++ " " ++ r.path ++ " missing auth middleware (" ++ file ++ ")")

/-! ## API validator health check (`src/modules/api.js`, `validate`) -/

/-- The fixed health-check vocabulary. -/
def healthPatterns : List String :=
  ["/health", "/healthz", "/ping", "/status", "/api/health"]

/-- A route path satisfying the health vocabulary: equal to a pattern or
extending it with a `/` segment. -/
def isHealthRoute (p : String) : Bool :=
  healthPatterns.any (fun pat => p == pat || isPrefixL (pat ++ "/").data p.data)

/-- Whether any route of any scanned route file matches the health
vocabulary. -/
def hasHealthEndpoint (codes : List String) : Bool :=
  codes.any (fun c => (extractRoutes c).any (fun r => isHealthRoute r.path))

/-- The health-endpoint issue list of the api validator over the contents of
its route files. -/
def apiHealthIssues (codes : List String) : List String :=
  if hasHealthEndpoint codes then []
  else ["/health endpoint missing (recommended for monitoring and load balancers)"]

/-! ## Env validator issues (`src/modules/env.js`, `validate`)

Only the issue list is modelled here; the warning-only checks (unused
variables, URL/EMAIL/PORT formats, short PASSWORD/KEY values) never feed the
issue list, whose construction below follows the source order exactly. -/

/-- First-match association-list lookup on string keys. -/
def lookupA : List (String × String) → String → Option String
  | [], _ => none
  | (a, b) :: t, k => if a = k then some b else lookupA t k

/-- The secret-like key filter `/SECRET|KEY|PASSWORD|TOKEN/i`. -/
def secretish (k : String) : Bool :=
  containsL (lowerL k.data) "secret".data
    || containsL (lowerL k.data) "key".data
    || containsL (lowerL k.data) "password".data
    || containsL (lowerL k.data) "token".data

/-- The issues contributed by one secret-like key: an empty value is an
`EMPTY` issue, a non-empty value shorter than 32 characters on a
`SECRET`-named key is a `WEAK SECRET` issue; the short-PASSWORD/KEY branch of
the source emits only a warning and contributes nothing here. -/
def secretKeyIssues (k v : String) : List String :=
  if v = "" then ["EMPTY: " ++ k ++ " is empty"]
  else if v.length < 32 && containsL (upperL k.data) "SECRET".data then
    ["WEAK SECRET: " ++ k ++ " (length < 32)"]
  else []

/-- The issue list built by the env validator from the existence flags and the
two parsed maps: a missing `.env` issue, a `MISSING:` issue per expected key
absent from the actual map (the expected map is parsed only when
`.env.example` exists), then the secret-key issues in key order. -/
def envIssues (envExists envExampleExists : Bool)
    (expected actual : List (String × String)) : List String :=
  (if envExists then [] else ["MISSING: .env file not found"])
    ++ (((if envExampleExists then expected else []).map Prod.fst).filter
          (fun k => !(actual.any (fun p => p.1 = k)))).map
        (fun k => "MISSING: " ++ k)
    ++ ((actual.map Prod.fst).filter secretish).flatMap
        (fun k => secretKeyIssues k ((lookupA actual k).getD ""))

/-! ## Dependencies validator (`src/modules/dependencies.js`, `validate`) -/

/-- The JSON value parsed from `package.json`, restricted to the shapes the
validator distinguishes: the JSON literal `null` (member access on it throws),
any other non-object value (member access yields `undefined`), or an object
carrying the three members the validator reads. -/
inductive PkgContent where
  | jnull : PkgContent
  | jprim : PkgContent
  | jobj (deps devDeps : List (String × String)) (startScript : Option String) : PkgContent
deriving DecidableEq

/-- Assignment into a string-keyed JavaScript object. -/
def envSetA (m : List (String × String)) (k v : String) : List (String × String) :=
  if m.any (fun p => p.1 = k) then
    m.map (fun p => if p.1 = k then (k, v) else p)
  else m ++ [(k, v)]

/-- The merged `{...dependencies, ...devDependencies}` object. -/
def pkgDeps : PkgContent → List (String × String)
  | .jobj d dd _ => (d ++ dd).foldl (fun m p => envSetA m p.1 p.2) []
  | _ => []

/-- The `scripts.start` member, present only on objects. -/
def pkgStart : PkgContent → Option String
  | .jobj _ _ s => s
  | _ => none

/-- Truthiness of `deps[name]`: present with a non-empty version string. -/
def depTruthy (deps : List (String × String)) (name : String) : Bool :=
  match lookupA deps name with
  | some v => !(v = "")
  | none => false

/-- The model of `version.replace(/[\^~]/, '')`: remove the first caret or
tilde. -/
def stripCaretTilde : List Char → List Char
  | [] => []
  | c :: t => if c == '^' || c == Char.ofNat 126 then t else c :: stripCaretTilde t

/-- The model of deriving the major Node version: drop the first `v`, take up
to the first dot, `parseInt` the leading digits (`none` models `NaN`, and
`NaN < 14` is false). -/
def parseNodeMajor (v : String) : Option Nat :=
  let l :=
    match v.data with
    | 'v' :: t => t
    | t => t
  let ds := (l.takeWhile (fun c => !(c == '.'))).takeWhile Char.isDigit
  if ds.isEmpty then none else some (natOfDigits ds)

/-- The model of the dependencies validator.  Inputs are the existence of
`package.json`, the result of `JSON.parse` on its content (`none` when the
parse throws), the presence of a lock file, and the Node version string.  The
result is `(passed, issues, warnings)`; `Except.error ()` models the uncaught
`TypeError` thrown by `packageJson.dependencies` when the parsed value is the
JSON literal `null`. -/
def depsValidate (pkgExists : Bool) (parsed : Option PkgContent)
    (hasLock : Bool) (nodeVersion : String) :
    Except Unit (Bool × List String × List String) :=
  if !pkgExists then .ok (false, ["package.json not found"], [])
  else
    match parsed with
    | none => .ok (false, ["package.json is malformed"], [])
    | some PkgContent.jnull => .error ()
    | some pj =>
      let deps := pkgDeps pj
      let w1 :=
        if hasLock then []
        else ["Lock file (package-lock.json or yarn.lock) not found (recommended for reproducible builds)"]
      let hasFramework := ["express", "fastify", "koa", "nestjs"].any (fun d => depTruthy deps d)
      let w2 :=
        if hasFramework then []
        else ["No major web framework detected (Express, Fastify, Koa, NestJS)"]
      let w3 :=
        match parseNodeMajor nodeVersion with
        | some m =>
          if m < 14 then ["Node.js version " ++ nodeVersion ++ " is outdated (recommended: >= 14.0.0)"]
          else []
        | none => []
      let missingSec :=
        ["helmet", "cors", "express-rate-limit", "bcrypt", "jsonwebtoken"].filter
          (fun p => !depTruthy deps p)
      let w4 :=
        if missingSec.isEmpty then []
        else ["Missing security packages: " ++ String.intercalate ", " missingSec]
      let w5 :=
        match lookupA deps "express" with
        | some ver =>
          if !(ver = "") && !(⟨stripCaretTilde ver.data⟩ = ("" : String))
              && containsL (stripCaretTilde ver.data) "4.".data then
            ["express version might be outdated - Older versions have security vulnerabilities"]
          else []
        | none => []
      let w6 :=
        if deps.length > 100 then
          ["Large number of dependencies (" ++ toString deps.length ++ ") - consider reviewing for unused packages"]
        else []
      let w7 :=
        match pkgStart pj with
        | some s =>
          if !(s = "") && (containsL s.data "nodemon".data || containsL s.data "ts-node-dev".data) then
            ["Development tools in start script (use production tools in production)"]
          else []
        | none => []
      let w8 := ["Run \"npm audit\" to check for known vulnerabilities"]
      .ok (true, [], w1 ++ w2 ++ w3 ++ w4 ++ w5 ++ w6 ++ w7 ++ w8)

/-! ## Report aggregator (`src/modules/report.js`, `generate`) -/

/-- The result shape every validator returns to the aggregator. -/
structure ModResult where
  passed : Bool
  issues : List String
  warnings : List String
deriving DecidableEq

/-- The fixed module order of the aggregator's module table. -/
def moduleOrder : List String :=
  ["env", "auth", "api", "project", "security", "dependencies", "database"]

/-- The aggregator's run loop: every module not named in `skip` is run, in
table order, and its result recorded under its name. -/
def runModules (skip : List String) (run : String → ModResult) : List (String × ModResult) :=
  moduleOrder.foldl
    (fun acc n => if skip.contains n then acc else acc ++ [(n, run n)]) []

/-- The model of `allPassed`: every recorded result passed. -/
def overallPassed (rs : List (String × ModResult)) : Bool :=
  rs.all (fun p => p.2.passed)

/-- The model of `totalIssues`: the fold summing issue counts. -/
def totalIssues (rs : List (String × ModResult)) : Nat :=
  rs.foldl (fun s p => s + p.2.issues.length) 0

/-- The model of `totalWarnings`: the fold summing warning counts. -/
def totalWarnings (rs : List (String × ModResult)) : Nat :=
  rs.foldl (fun s p => s + p.2.warnings.length) 0

/-! ## Substring lemmas -/

theorem isPrefixL_iff (p : List Char) : ∀ l, isPrefixL p l = true ↔ ∃ t, l = p ++ t := by
  induction p with
  | nil => intro l; simp [isPrefixL]
  | cons a ps ih =>
    intro l
    cases l with
    | nil => simp [isPrefixL]
    | cons b bs =>
      simp only [isPrefixL, Bool.and_eq_true, beq_iff_eq, ih, List.cons_append]
      constructor
      · rintro ⟨rfl, t, rfl⟩
        exact ⟨t, rfl⟩
      · rintro ⟨t, h⟩
        cases h
        exact ⟨rfl, t, rfl⟩

theorem containsL_iff (l : List Char) : ∀ p, containsL l p = true ↔ ∃ x y, l = x ++ (p ++ y) := by
  induction l with
  | nil =>
    intro p
    simp only [containsL, List.isEmpty_iff]
    constructor
    · rintro rfl
      exact ⟨[], [], rfl⟩
    · rintro ⟨x, y, h⟩
      rcases List.append_eq_nil.mp h.symm with ⟨rfl, h2⟩
      rcases List.append_eq_nil.mp h2 with ⟨rfl, rfl⟩
      rfl
  | cons c t ih =>
    intro p
    simp only [containsL, Bool.or_eq_true, isPrefixL_iff, ih]
    constructor
    · rintro (⟨s, hs⟩ | ⟨x, y, hx⟩)
      · exact ⟨[], s, by simpa using hs⟩
      · exact ⟨c :: x, y, by simp [hx]⟩
    · rintro ⟨x, y, h⟩
      cases x with
      | nil => exact Or.inl ⟨y, by simpa using h⟩
      | cons d ds =>
        rcases List.cons_eq_cons.mp h with ⟨rfl, rfl⟩
        exact Or.inr ⟨ds, y, rfl⟩

theorem containsL_trans {l p q : List Char} (h1 : containsL l p = true)
    (h2 : containsL p q = true) : containsL l q = true := by
  rcases (containsL_iff l p).mp h1 with ⟨x, y, rfl⟩
  rcases (containsL_iff p q).mp h2 with ⟨u, v, rfl⟩
  exact (containsL_iff _ q).mpr ⟨x ++ u, v ++ y, by simp⟩

theorem containsL_map (f : Char → Char) {l p : List Char} (h : containsL l p = true) :
    containsL (l.map f) (p.map f) = true := by
  rcases (containsL_iff l p).mp h with ⟨x, y, rfl⟩
  exact (containsL_iff _ _).mpr ⟨x.map f, y.map f, by simp⟩

theorem containsL_append_right {a b p : List Char} (h : containsL b p = true) :
    containsL (a ++ b) p = true := by
  rcases (containsL_iff b p).mp h with ⟨x, y, rfl⟩
  exact (containsL_iff _ _).mpr ⟨a ++ x, y, by simp⟩

theorem containsL_of_drop {l p : List Char} (n : Nat) (h : containsL (l.drop n) p = true) :
    containsL l p = true := by
  have := containsL_append_right (a := l.take n) h
  rwa [List.take_append_drop] at this

theorem authBeforeNL_contains : ∀ l, authBeforeNL l = true → containsL l "auth".data = true := by
  intro l
  induction l with
  | nil => simp [authBeforeNL]
  | cons c t ih =>
    intro h
    simp only [authBeforeNL, Bool.or_eq_true, Bool.and_eq_true] at h
    rcases h with h | ⟨_, h⟩
    · simp only [containsL, Bool.or_eq_true]
      exact Or.inl h
    · simp only [containsL, Bool.or_eq_true]
      exact Or.inr (ih h)

theorem mwAuthScan_contains : ∀ l, mwAuthScan l = true → containsL l "auth".data = true := by
  intro l
  induction l with
  | nil => simp [mwAuthScan]
  | cons c t ih =>
    intro h
    simp only [mwAuthScan, Bool.or_eq_true, Bool.and_eq_true] at h
    rcases h with ⟨_, h⟩ | h
    · exact containsL_of_drop 10 (authBeforeNL_contains _ h)
    · simp only [containsL, Bool.or_eq_true]
      exact Or.inr (ih h)

theorem mwEventually_contains : ∀ l, mwEventually l = true → containsL l "auth".data = true := by
  intro l
  induction l with
  | nil => simp [mwEventually]
  | cons c t ih =>
    intro h
    simp only [mwEventually, Bool.or_eq_true, Bool.and_eq_true] at h
    rcases h with ⟨_, h⟩ | h
    · exact containsL_of_drop 10 h
    · simp only [containsL, Bool.or_eq_true]
      exact Or.inr (ih h)

/-! ## Characterization of the auth-context disjunction

Every listed identifier other than `auth`, `jwt` and `verifyToken` contains
`auth` as a substring, the `passport.authenticate` literal contains `auth`,
and both middleware patterns imply an `auth` occurrence, so the whole
disjunction collapses to the three dominant tokens. -/

theorem authPat_iff (ctx : List Char) :
    authPat ctx = true ↔
      (containsL (lowerL ctx) "auth".data = true
        ∨ containsL (lowerL ctx) "jwt".data = true
        ∨ containsL (lowerL ctx) "verifytoken".data = true) := by
  constructor
  · intro h
    simp only [authPat, Bool.or_eq_true, List.any_eq_true] at h
    rcases h with (⟨tok, htok, hc⟩ | hpp) | hmw
    · simp only [authTokens, List.mem_cons, List.not_mem_nil, or_false] at htok
      rcases htok with rfl | rfl | rfl | rfl | rfl | rfl
      · exact Or.inl (containsL_trans hc (by decide))
      · exact Or.inl hc
      · exact Or.inr (Or.inl hc)
      · exact Or.inr (Or.inr hc)
      · exact Or.inl (containsL_trans hc (by decide))
      · exact Or.inl (containsL_trans hc (by decide))
    · have h2 := containsL_map Char.toLower hpp
      have h3 : ("passport.authenticate".data).map Char.toLower
          = "passport.authenticate".data := by decide
      rw [h3] at h2
      exact Or.inl (containsL_trans h2 (by decide))
    · exact Or.inl (mwAuthScan_contains _ hmw)
  · intro h
    simp only [authPat, Bool.or_eq_true, List.any_eq_true]
    rcases h with h | h | h
    · exact Or.inl (Or.inl ⟨"auth", by decide, h⟩)
    · exact Or.inl (Or.inl ⟨"jwt", by decide, h⟩)
    · exact Or.inl (Or.inl ⟨"verifytoken", by decide, h⟩)

theorem specAuthPat_iff (ctx : List Char) :
    specAuthPat ctx = true ↔
      (containsL (lowerL ctx) "auth".data = true
        ∨ containsL (lowerL ctx) "jwt".data = true
        ∨ containsL (lowerL ctx) "verifytoken".data = true) := by
  constructor
  · intro h
    simp only [specAuthPat, Bool.or_eq_true, List.any_eq_true] at h
    rcases h with (⟨tok, htok, hc⟩ | hpp) | hmw
    · simp only [authTokens, List.mem_cons, List.not_mem_nil, or_false] at htok
      rcases htok with rfl | rfl | rfl | rfl | rfl | rfl
      · exact Or.inl (containsL_trans hc (by decide))
      · exact Or.inl hc
      · exact Or.inr (Or.inl hc)
      · exact Or.inr (Or.inr hc)
      · exact Or.inl (containsL_trans hc (by decide))
      · exact Or.inl (containsL_trans hc (by decide))
    · exact Or.inl (containsL_trans hpp (by decide))
    · exact Or.inl (mwEventually_contains _ hmw)
  · intro h
    simp only [specAuthPat, Bool.or_eq_true, List.any_eq_true]
    rcases h with h | h | h
    · exact Or.inl (Or.inl ⟨"auth", by decide, h⟩)
    · exact Or.inl (Or.inl ⟨"jwt", by decide, h⟩)
    · exact Or.inl (Or.inl ⟨"verifytoken", by decide, h⟩)

/-! ## String-head and counting helpers -/

theorem head_data_append (a b : String) (c : Char) (cs : List Char) (h : a.data = c :: cs) :
    (a ++ b).data = c :: (cs ++ b.data) := by
  rw [String.data_append, h]
  rfl

theorem string_ne_of_head {a b : String} {c d : Char} {cs ds : List Char}
    (ha : a.data = c :: cs) (hb : b.data = d :: ds) (h : c ≠ d) : a ≠ b := by
  intro he
  subst he
  rw [ha] at hb
  exact h (List.cons_eq_cons.mp hb).1

theorem isPrefixL_false_head {c d : Char} (ps ss : List Char) (h : (c == d) = false) :
    isPrefixL (c :: ps) (d :: ss) = false := by
  simp [isPrefixL, h]

theorem count_filter_pos {α : Type} [DecidableEq α] (p : α → Bool) (r : α) (h : p r = true) :
    ∀ l : List α, List.count r (l.filter p) = List.count r l := by
  intro l
  induction l with
  | nil => rfl
  | cons a t ih =>
    by_cases hpa : p a = true
    · simp [List.filter_cons, hpa, List.count_cons, ih]
    · have hne : (a == r) = false := by
        refine beq_eq_false_iff_ne.mpr ?_
        rintro rfl
        exact hpa h
      simp [List.filter_cons, hpa, List.count_cons, ih, hne]

theorem sum_map_eq_single {α : Type} [DecidableEq α] (g : α → Nat) (k : α) :
    ∀ l : List α, l.Nodup → k ∈ l → (∀ a ∈ l, a ≠ k → g a = 0) → (l.map g).sum = g k := by
  intro l
  induction l with
  | nil => intro _ h; cases h
  | cons a t ih =>
    intro hnd hmem hz
    rcases List.mem_cons.mp hmem with rfl | hmem2
    · have hzt : ∀ x ∈ t, g x = 0 := by
        intro x hx
        refine hz x (List.mem_cons_of_mem _ hx) ?_
        rintro rfl
        exact (List.nodup_cons.mp hnd).1 hx
      have : (t.map g).sum = 0 := by
        refine List.sum_eq_zero ?_
        intro y hy
        rcases List.mem_map.mp hy with ⟨x, hx, rfl⟩
        exact hzt x hx
      simp [this]
    · have hak : a ≠ k := by
        rintro rfl
        exact (List.nodup_cons.mp hnd).1 hmem2
      have hga : g a = 0 := hz a (List.mem_cons_self _ _) hak
      have := ih (List.nodup_cons.mp hnd).2 hmem2
        (fun x hx hxk => hz x (List.mem_cons_of_mem _ hx) hxk)
      simp [hga, this]

theorem lookupA_mem_keys : ∀ (m : List (String × String)) (k v : String),
    lookupA m k = some v → k ∈ m.map Prod.fst := by
  intro m
  induction m with
  | nil => intro k v h; cases h
  | cons p t ih =>
    intro k v h
    rcases p with ⟨a, b⟩
    by_cases hak : a = k
    · subst hak
      simp
    · simp only [lookupA, if_neg hak] at h
      simpa using Or.inr (ih k v h)

/-! ## Trim lemmas -/

theorem dropWhile_head_false (p : Char → Bool) :
    ∀ (l : List Char) (c : Char) (t : List Char), l.dropWhile p = c :: t → p c = false := by
  intro l
  induction l with
  | nil => intro c t h; cases h
  | cons a r ih =>
    intro c t h
    by_cases hp : p a = true
    · rw [List.dropWhile_cons, if_pos hp] at h
      exact ih c t h
    · rw [List.dropWhile_cons, if_neg hp] at h
      rcases List.cons_eq_cons.mp h with ⟨rfl, rfl⟩
      exact Bool.eq_false_iff.mpr hp

theorem trimRightL_prefix (l : List Char) : ∃ s, trimRightL l ++ s = l := by
  refine ⟨(l.reverse.takeWhile isWsC).reverse, ?_⟩
  rw [trimRightL, ← List.reverse_append, List.takeWhile_append_dropWhile, List.reverse_reverse]

theorem trimRightL_getLast_false (l : List Char) (c : Char)
    (h : (trimRightL l).getLast? = some c) : isWsC c = false := by
  rw [trimRightL, List.getLast?_reverse] at h
  cases hd : l.reverse.dropWhile isWsC with
  | nil => rw [hd] at h; cases h
  | cons a t =>
    rw [hd] at h
    have hac : a = c := by simpa using h
    subst hac
    exact dropWhile_head_false isWsC l.reverse a t hd

theorem jsTrimL_head_false (l : List Char) (c : Char) (t : List Char)
    (h : jsTrimL l = c :: t) : isWsC c = false := by
  rcases trimRightL_prefix (trimLeftL l) with ⟨s, hs⟩
  rw [jsTrimL] at h
  rw [h] at hs
  have h2 : trimLeftL l = c :: (t ++ s) := by rw [← hs]; simp
  exact dropWhile_head_false isWsC l c (t ++ s) (by simpa [trimLeftL] using h2)

theorem jsTrimL_getLast_false (l : List Char) (c : Char)
    (h : (jsTrimL l).getLast? = some c) : isWsC c = false :=
  trimRightL_getLast_false _ c h

theorem jsTrimL_eq_self (l : List Char)
    (h1 : ∀ c t, l = c :: t → isWsC c = false)
    (h2 : ∀ c, l.getLast? = some c → isWsC c = false) : jsTrimL l = l := by
  have hleft : trimLeftL l = l := by
    cases l with
    | nil => rfl
    | cons c t =>
      rw [trimLeftL, List.dropWhile_cons, if_neg]
      rw [h1 c t rfl]
      simp
  rw [jsTrimL, hleft, trimRightL]
  cases hr : l.reverse with
  | nil =>
    have : l = [] := by simpa using congrArg List.reverse hr
    simp [this]
  | cons c t =>
    have hc : l.getLast? = some c := by
      rw [← List.head?_reverse, hr]
      rfl
    rw [List.dropWhile_cons, if_neg (by rw [h2 c hc]; simp)]
    rw [← hr, List.reverse_reverse]

theorem jsTrimL_idem (l : List Char) : jsTrimL (jsTrimL l) = jsTrimL l := by
  refine jsTrimL_eq_self _ ?_ ?_
  · intro c t h
    exact jsTrimL_head_false l c t h
  · intro c h
    exact jsTrimL_getLast_false l c h

/-! ## Env-parser lemmas -/

theorem parseLineL_key_shape (line k v : List Char) (h : parseLineL line = some (k, v)) :
    ∃ pre, k = jsTrimL pre := by
  simp only [parseLineL] at h
  split at h
  · cases h
  · split at h
    · cases h
    · split at h
      · split at h
        · cases h
        · split at h
          · cases h
          · rcases Option.some.inj h with he
            exact ⟨_, (congrArg Prod.fst he).symm⟩
      · cases h

theorem parseLine_none_of_ignorable (l : List Char) (h : ignorableLine l = true) :
    parseLineL l = none := by
  unfold ignorableLine at h
  simp only [parseLineL]
  rcases Bool.or_eq_true _ _ |>.mp h with h1 | h1
  · rw [if_pos h1]
  · split
    · rfl
    · simp [h1]

theorem envSetL_mem (m : List (List Char × List Char)) (k v : List Char)
    (x : List Char × List Char) (h : x ∈ envSetL m k v) : x = (k, v) ∨ x ∈ m := by
  unfold envSetL at h
  split at h
  · rcases List.mem_map.mp h with ⟨p, hp, hfp⟩
    by_cases hk : p.1 = k
    · rw [if_pos hk] at hfp
      exact Or.inl hfp.symm
    · rw [if_neg hk] at hfp
      exact Or.inr (hfp ▸ hp)
  · rcases List.mem_append.mp h with h2 | h2
    · exact Or.inr h2
    · exact Or.inl (by simpa using h2)

theorem parse_fold_keys_trimmed :
    ∀ (lines : List (List Char)) (m : List (List Char × List Char)),
      (∀ p ∈ m, jsTrimL p.1 = p.1) →
      ∀ p ∈ lines.foldl envStepL m, jsTrimL p.1 = p.1 := by
  intro lines
  induction lines with
  | nil => intro m hm p hp; exact hm p hp
  | cons l t ih =>
    intro m hm p hp
    rw [List.foldl_cons] at hp
    refine ih _ ?_ p hp
    intro q hq
    unfold envStepL at hq
    cases hpl : parseLineL l with
    | none => rw [hpl] at hq; exact hm q hq
    | some kv =>
      rw [hpl] at hq
      rcases kv with ⟨k, v⟩
      rcases envSetL_mem m k v q hq with rfl | hq2
      · rcases parseLineL_key_shape l k v hpl with ⟨pre, rfl⟩
        exact jsTrimL_idem pre
      · exact hm q hq2

theorem parse_fold_filter :
    ∀ (lines : List (List Char)) (m : List (List Char × List Char)),
      (lines.filter (fun l => !ignorableLine l)).foldl envStepL m
        = lines.foldl envStepL m := by
  intro lines
  induction lines with
  | nil => intro m; rfl
  | cons l t ih =>
    intro m
    by_cases hi : ignorableLine l = true
    · have hstep : envStepL m l = m := by
        unfold envStepL
        rw [parseLine_none_of_ignorable l hi]
      rw [List.filter_cons, if_neg (by simp [hi]), List.foldl_cons, hstep, ih]
    · rw [List.filter_cons, if_pos (by simp [Bool.eq_false_iff.mpr hi]), List.foldl_cons,
        List.foldl_cons, ih]

theorem lookup_map_ne (k v k' : List Char) (hne : k' ≠ k) :
    ∀ m : List (List Char × List Char),
      lookupL (m.map (fun p => if p.1 = k then (k, v) else p)) k' = lookupL m k' := by
  intro m
  induction m with
  | nil => rfl
  | cons p t ih =>
    rcases p with ⟨a, b⟩
    rw [List.map_cons]
    by_cases hak : a = k
    · have hh : (if ((a, b) : List Char × List Char).1 = k then (k, v) else (a, b))
          = (k, v) := by simp [hak]
      rw [hh]
      show (if k = k' then some v else lookupL (t.map _) k') = lookupL ((a, b) :: t) k'
      rw [if_neg (fun h => hne h.symm), ih]
      show lookupL t k' = if a = k' then some b else lookupL t k'
      rw [if_neg (fun h => hne (hak ▸ h : k = k').symm)]
    · have hh : (if ((a, b) : List Char × List Char).1 = k then (k, v) else (a, b))
          = (a, b) := by simp [hak]
      rw [hh]
      show (if a = k' then some b else lookupL (t.map _) k') = lookupL ((a, b) :: t) k'
      rw [ih]
      rfl

theorem lookup_map_set (k v k' : List Char) :
    ∀ m : List (List Char × List Char), m.any (fun p => p.1 = k) = true →
      lookupL (m.map (fun p => if p.1 = k then (k, v) else p)) k'
        = if k' = k then some v else lookupL m k' := by
  intro m
  induction m with
  | nil => intro h; cases h
  | cons p t ih =>
    intro hany
    rcases p with ⟨a, b⟩
    rw [List.map_cons]
    by_cases hak : a = k
    · have hh : (if ((a, b) : List Char × List Char).1 = k then (k, v) else (a, b))
          = (k, v) := by simp [hak]
      rw [hh]
      show (if k = k' then some v else lookupL (t.map _) k')
          = if k' = k then some v else lookupL ((a, b) :: t) k'
      by_cases hkk : k' = k
      · rw [if_pos hkk.symm, if_pos hkk]
      · rw [if_neg (fun h : k = k' => hkk h.symm), if_neg hkk,
          lookup_map_ne k v k' hkk t]
        show lookupL t k' = if a = k' then some b else lookupL t k'
        rw [if_neg (fun h : a = k' => hkk ((hak ▸ h : k = k').symm))]
    · have hany2 : t.any (fun p => p.1 = k) = true := by
        simpa [List.any_cons, hak] using hany
      have hh : (if ((a, b) : List Char × List Char).1 = k then (k, v) else (a, b))
          = (a, b) := by simp [hak]
      rw [hh]
      show (if a = k' then some b else lookupL (t.map _) k')
          = if k' = k then some v else lookupL ((a, b) :: t) k'
      by_cases hak2 : a = k'
      · have hkk : ¬ (k' = k) := fun h => hak (hak2.trans h)
        rw [if_pos hak2, if_neg hkk]
        show some b = if a = k' then some b else lookupL t k'
        rw [if_pos hak2]
      · rw [if_neg hak2, ih hany2]
        by_cases hkk : k' = k
        · rw [if_pos hkk, if_pos hkk]
        · rw [if_neg hkk, if_neg hkk]
          show lookupL t k' = if a = k' then some b else lookupL t k'
          rw [if_neg hak2]

theorem lookup_append_single (k v k' : List Char) :
    ∀ m : List (List Char × List Char), (∀ p ∈ m, p.1 ≠ k) →
      lookupL (m ++ [(k, v)]) k' = if k' = k then some v else lookupL m k' := by
  intro m
  induction m with
  | nil =>
    intro _
    show (if k = k' then some v else none) = if k' = k then some v else none
    by_cases hk : k' = k
    · rw [if_pos hk.symm, if_pos hk]
    · rw [if_neg (fun h : k = k' => hk h.symm), if_neg hk]
  | cons p t ih =>
    intro hm
    rcases p with ⟨a, b⟩
    have hak : a ≠ k := hm (a, b) (List.mem_cons_self _ _)
    have ih2 := ih (fun p hp => hm p (List.mem_cons_of_mem _ hp))
    show (if a = k' then some b else lookupL (t ++ [(k, v)]) k')
        = if k' = k then some v else lookupL ((a, b) :: t) k'
    by_cases hak2 : a = k'
    · have hkk : ¬ (k' = k) := fun h => hak (hak2.trans h)
      rw [if_pos hak2, if_neg hkk]
      show some b = if a = k' then some b else lookupL t k'
      rw [if_pos hak2]
    · rw [if_neg hak2, ih2]
      by_cases hkk : k' = k
      · rw [if_pos hkk, if_pos hkk]
      · rw [if_neg hkk, if_neg hkk]
        show lookupL t k' = if a = k' then some b else lookupL t k'
        rw [if_neg hak2]

theorem lookup_envSet (m : List (List Char × List Char)) (k v k' : List Char) :
    lookupL (envSetL m k v) k' = if k' = k then some v else lookupL m k' := by
  unfold envSetL
  by_cases hany : m.any (fun p => p.1 = k) = true
  · rw [if_pos hany]
    exact lookup_map_set k v k' m hany
  · rw [if_neg hany]
    refine lookup_append_single k v k' m ?_
    intro p hp hpk
    exact hany (List.any_eq_true.mpr ⟨p, hp, by simpa using hpk⟩)

theorem lookup_parse_fold (k : List Char) :
    ∀ (lines : List (List Char)) (m : List (List Char × List Char)),
      lookupL (lines.foldl envStepL m) k
        = lines.foldl (lastStepL k) (lookupL m k) := by
  intro lines
  induction lines with
  | nil => intro m; rfl
  | cons l t ih =>
    intro m
    rw [List.foldl_cons, List.foldl_cons, ih]
    congr 1
    unfold envStepL lastStepL
    cases hpl : parseLineL l with
    | none => rfl
    | some kv =>
      rcases kv with ⟨k2, v2⟩
      simp only
      rw [lookup_envSet]
      by_cases hk : k2 = k
      · subst hk
        simp
      · rw [if_neg (fun h => hk h.symm), if_neg hk]

theorem takeWhile_no_eq : ∀ (k rest : List Char), '=' ∉ k →
    (k ++ '=' :: rest).takeWhile (fun c => !(c == '=')) = k := by
  intro k
  induction k with
  | nil =>
    intro rest _
    simp [List.takeWhile_cons]
  | cons c t ih =>
    intro rest hne
    have hc : ¬ (c = '=') := fun h => hne (h ▸ List.mem_cons_self _ _)
    rw [List.cons_append, List.takeWhile_cons, if_pos (by simp [hc])]
    rw [ih rest (fun h => hne (List.mem_cons_of_mem _ h))]

theorem dropWhile_no_eq : ∀ (k rest : List Char), '=' ∉ k →
    (k ++ '=' :: rest).dropWhile (fun c => !(c == '=')) = '=' :: rest := by
  intro k
  induction k with
  | nil =>
    intro rest _
    simp [List.dropWhile_cons]
  | cons c t ih =>
    intro rest hne
    have hc : ¬ (c = '=') := fun h => hne (h ▸ List.mem_cons_self _ _)
    rw [List.cons_append, List.dropWhile_cons, if_pos (by simp [hc])]
    exact ih rest (fun h => hne (List.mem_cons_of_mem _ h))

theorem stripQuotes_wrap (v : List Char) (q : Char) (hq : q = '"' ∨ q = '\'') :
    stripQuotes (q :: (v ++ [q])) = v := by
  have hql : (q == '"' || q == '\'') = true := by
    rcases hq with rfl | rfl <;> decide
  simp [stripQuotes, hql, List.getLast?_concat, List.dropLast_concat]

theorem parseLineL_quoted (k v : List Char) (q : Char)
    (hq : q = '"' ∨ q = '\'')
    (hk0 : k ≠ []) (hkt : jsTrimL k = k)
    (hkeq : '=' ∉ k) (hkh : k.head? ≠ some '#')
    (hv : '\n' ∉ v) :
    parseLineL (k ++ '=' :: q :: (v ++ [q])) = some (k, v) := by
  have hqws : isWsC q = false := by rcases hq with rfl | rfl <;> decide
  obtain ⟨c, t, rfl⟩ : ∃ c t, k = c :: t := by
    cases k with
    | nil => exact absurd rfl hk0
    | cons c t => exact ⟨c, t, rfl⟩
  have hch : isWsC c = false := jsTrimL_head_false _ c t hkt
  have hline_last : ((c :: t) ++ '=' :: q :: (v ++ [q])).getLast? = some q := by
    rw [show (c :: t) ++ '=' :: q :: (v ++ [q]) = ((c :: t) ++ '=' :: q :: v) ++ [q] by simp]
    exact List.getLast?_concat _
  have htrim : jsTrimL ((c :: t) ++ '=' :: q :: (v ++ [q]))
      = (c :: t) ++ '=' :: q :: (v ++ [q]) := by
    refine jsTrimL_eq_self _ ?_ ?_
    · intro c2 t2 h2
      rw [List.cons_append] at h2
      rcases List.cons_eq_cons.mp h2 with ⟨rfl, _⟩
      exact hch
    · intro c2 h2
      rw [hline_last] at h2
      cases h2
      exact hqws
  have hcne : ¬ (c = '#') := by
    intro h
    exact hkh (by rw [h]; rfl)
  have hqn : q ≠ '\n' := by rcases hq with rfl | rfl <;> decide
  have hvq : ((q :: (v ++ [q])).any (fun c => c == '\n')) = false := by
    rw [List.any_eq_false]
    intro c2 hc2
    simp only [List.mem_cons, List.mem_append, List.mem_singleton] at hc2
    intro hbeq
    have hc2n : c2 = '\n' := by simpa using hbeq
    subst hc2n
    rcases hc2 with h | h | h
    · exact hqn h.symm
    · exact hv h
    · rcases h with h | h
      · exact hqn h.symm
      · exact absurd h (List.not_mem_nil _)
  have hval_last : (q :: (v ++ [q])).getLast? = some q := by
    rw [show q :: (v ++ [q]) = (q :: v) ++ [q] by simp]
    exact List.getLast?_concat _
  have htrimval : jsTrimL (q :: (v ++ [q])) = q :: (v ++ [q]) := by
    refine jsTrimL_eq_self _ ?_ ?_
    · intro c2 t2 h2
      rcases List.cons_eq_cons.mp h2 with ⟨rfl, _⟩
      exact hqws
    · intro c2 h2
      rw [hval_last] at h2
      cases h2
      exact hqws
  simp only [parseLineL]
  rw [htrim]
  rw [if_neg (by simp)]
  rw [if_neg (by simp [hcne])]
  rw [takeWhile_no_eq _ _ hkeq, dropWhile_no_eq _ _ hkeq]
  simp only
  rw [if_neg (by simp), if_neg (by simp [hvq])]
  rw [hkt, htrimval, stripQuotes_wrap v q hq]

/-! ## Aggregator lemmas -/

theorem runModules_fold (skip : List String) (run : String → ModResult) :
    ∀ (ns : List String) (acc : List (String × ModResult)),
      ns.foldl (fun a n => if skip.contains n then a else a ++ [(n, run n)]) acc
        = acc ++ (ns.filter (fun n => !skip.contains n)).map (fun n => (n, run n)) := by
  intro ns
  induction ns with
  | nil => intro acc; simp
  | cons n t ih =>
    intro acc
    rw [List.foldl_cons]
    by_cases hn : skip.contains n = true
    · have hb : (!skip.contains n) = false := by rw [hn]; rfl
      rw [if_pos hn, ih, List.filter_cons, if_neg (fun h => by rw [hb] at h; cases h)]
    · have hn2 : skip.contains n = false := Bool.eq_false_iff.mpr hn
      have hb : (!skip.contains n) = true := by rw [hn2]; rfl
      rw [if_neg hn, ih, List.filter_cons, if_pos hb, List.map_cons]
      simp

theorem foldl_add_map {α : Type} (f : α → Nat) :
    ∀ (l : List α) (init : Nat), l.foldl (fun s p => s + f p) init = init + (l.map f).sum := by
  intro l
  induction l with
  | nil => intro init; simp
  | cons a t ih =>
    intro init
    rw [List.foldl_cons, ih, List.map_cons, List.sum_cons]
    omega

/-! ## Secret-key helper lemmas -/

theorem secretish_of_contains (k : String) (h : containsL k.data "SECRET".data = true) :
    secretish k = true := by
  have h2 := containsL_map Char.toLower h
  have h3 : ("SECRET".data).map Char.toLower = "secret".data := by decide
  rw [h3] at h2
  simp only [secretish, lowerL, Bool.or_eq_true]
  exact Or.inl (Or.inl (Or.inl h2))

theorem upper_contains_secret (k : String) (h : containsL k.data "SECRET".data = true) :
    containsL (upperL k.data) "SECRET".data = true := by
  have h2 := containsL_map Char.toUpper h
  have h3 : ("SECRET".data).map Char.toUpper = "SECRET".data := by decide
  rw [h3] at h2
  exact h2

/-! ## Issue-string helper lemmas -/

theorem empty_issue_head (a : String) :
    ("EMPTY: " ++ a ++ " is empty").data = 'E' :: (("MPTY: ".data ++ a.data) ++ " is empty".data) :=
  head_data_append ("EMPTY: " ++ a) " is empty" 'E' ("MPTY: ".data ++ a.data)
    (head_data_append "EMPTY: " a 'E' "MPTY: ".data rfl)

theorem weak_issue_head (a : String) :
    ("WEAK SECRET: " ++ a ++ " (length < 32)").data
      = 'W' :: (("EAK SECRET: ".data ++ a.data) ++ " (length < 32)".data) :=
  head_data_append ("WEAK SECRET: " ++ a) " (length < 32)" 'W' ("EAK SECRET: ".data ++ a.data)
    (head_data_append "WEAK SECRET: " a 'W' "EAK SECRET: ".data rfl)

theorem missing_issue_head (a : String) :
    ("MISSING: " ++ a).data = 'M' :: ("ISSING: ".data ++ a.data) :=
  head_data_append "MISSING: " a 'M' "ISSING: ".data rfl

theorem weak_secret_ne (a k : String) (h : a ≠ k) :
    ("WEAK SECRET: " ++ a ++ " (length < 32)") ≠ ("WEAK SECRET: " ++ k ++ " (length < 32)") := by
  intro he
  apply h
  have hd := congrArg String.data he
  rw [String.data_append, String.data_append, String.data_append, String.data_append] at hd
  have h1 := List.append_cancel_right hd
  have h2 := List.append_cancel_left h1
  exact String.ext h2

theorem count_singleton_ne {x y : String} (h : ¬ (y = x)) : List.count x [y] = 0 := by
  simp [List.count_cons, h]

/-! ## Claim theorems -/

/-- Claim C9: route extraction is deterministic, idempotent and
order-preserving — two invocations of `extractRoutes` on identical text return
equal route sequences in the same order.  In the pure embedding the extractor
is a function of the text alone (the source builds fresh regex objects on
every call, so no `lastIndex` state survives between calls), and the property
is definitional. -/
theorem claim9_holds : ∀ (c1 c2 : String), c1 = c2 → extractRoutes c1 = extractRoutes c2 := by
  intro c1 c2 h
  rw [h]

theorem claim9_witness :
    extractRoutes "app.get('/users', handler)" = extractRoutes "app.get('/users', handler)" :=
  claim9_holds "app.get('/users', handler)" "app.get('/users', handler)" rfl

/-- Claim C7 (code bug): `package.json` that exists and whose content is the
valid JSON literal `null` passes `JSON.parse` without throwing, so the
malformed-file branch is not taken, and the subsequent member access
`packageJson.dependencies` throws an uncaught TypeError: the validator
produces no result at all instead of the claimed `passed = true` with
warnings only. -/
theorem claim7_bug_eval :
    depsValidate true (some PkgContent.jnull) true "v18.0.0" = Except.error () := rfl

/-- Claim C2 counterexample: an auth token placed three lines after the route
line is seen by `hasAuthMiddleware` (the slice `[idx-3, idx+3)` spans six
lines) but lies outside the five-line window claimed by the spec, so the
claimed window-equivalence fails at this input. -/
theorem claim2_counterexample :
    hasAuthMiddleware "app.get('/x', h)\n\n\nrequireAuth(x)" 1 = true
      ∧ claimedAuthCheck5 "app.get('/x', h)\n\n\nrequireAuth(x)" 1 = false := by
  constructor
  · decide
  · decide

/-- Claim C2 (amended): the auth-context check examines exactly the fixed
window of two lines before the target line through THREE lines after it (six
lines total, clamped at the text boundaries) — its result depends only on
that slice — and on that window it is equivalent to the spec-worded
disjunction (auth-flavored identifier, passport.authenticate call,
middleware followed eventually by auth, case-insensitively). -/
theorem claim2_amended :
    (∀ (code code2 : String) (idx : Nat),
        sliceCtx (splitNL code.data) idx = sliceCtx (splitNL code2.data) idx →
        hasAuthMiddleware code idx = hasAuthMiddleware code2 idx)
    ∧ ∀ (code : String) (idx : Nat), hasAuthMiddleware code idx = specAuthCheck6 code idx := by
  constructor
  · intro code code2 idx h
    unfold hasAuthMiddleware
    rw [h]
  · intro code idx
    unfold hasAuthMiddleware specAuthCheck6
    rw [Bool.eq_iff_iff, authPat_iff, specAuthPat_iff]

theorem claim2_witness :
    hasAuthMiddleware "app.get('/users', handler)" 1
      = hasAuthMiddleware "app.get('/users', handler)" 1 :=
  claim2_amended.1 "app.get('/users', handler)" "app.get('/users', handler)" 1 rfl

/-- Claim C4: the expiry `expiresIn: '30d'` converts to exactly 2,592,000
seconds, and any extracted expiry strictly above 31,536,000 seconds (one
year) makes the auth validator record exactly one issue and no warning. -/
theorem claim4_holds :
    extractJWTExpiry "expiresIn: '30d'" = some 2592000
    ∧ ∀ e : Nat, e > 31536000 →
        (jwtAuthCheck (some e)).1.length = 1 ∧ (jwtAuthCheck (some e)).2 = [] := by
  constructor
  · decide
  · intro e he
    have h1 : e > 365 * 24 * 60 * 60 := by omega
    simp [jwtAuthCheck, h1]

theorem claim4_witness :
    extractJWTExpiry "expiresIn: '400d'" = some 34560000
    ∧ (jwtAuthCheck (some 34560000)).1.length = 1 ∧ (jwtAuthCheck (some 34560000)).2 = [] :=
  ⟨by decide, claim4_holds.2 34560000 (by decide)⟩

/-- Claim C10: when the first `expiresIn` value-and-unit match carries the
bare unit token `m`, the conversion applies the month multiplier —
`value * 2,592,000` seconds — not minutes; and a conversion lands in the
minutes branch (`value * 60`, for positive values) only when the unit token
contains `minute` or equals `min`. -/
theorem claim10_holds :
    (∀ (code : String) (v : Nat) (us : List Char),
        scanKeyUnit "expiresin" code.data = some (v, us) → lowerL us = "m".data →
        extractJWTExpiry code = some (v * 2592000))
    ∧ ∀ (u : List Char) (v : Nat), 1 ≤ v → convertUnitL u v = v * 60 →
        (containsL u "minute".data = true ∨ u = "min".data) := by
  constructor
  · intro code v us h1 h2
    simp only [extractJWTExpiry, h1, h2]
    have hm : convertUnitL "m".data v = v * 30 * 24 * 60 * 60 := by
      unfold convertUnitL
      rw [if_neg (by decide), if_pos (by decide)]
    rw [hm]
    have : v * 30 * 24 * 60 * 60 = v * 2592000 := by omega
    rw [this]
  · intro u v hv h
    unfold convertUnitL at h
    split_ifs at h with h1 h2 h3 h4 h5
    · omega
    · omega
    · omega
    · omega
    · simpa using h5
    · omega

theorem claim10_witness :
    extractJWTExpiry "expiresIn: '15m'" = some (15 * 2592000) :=
  claim10_holds.1 "expiresIn: '15m'" 15 ['m'] (by decide) (by decide)

/-- Claim C5: the aggregator's overall verdict is the conjunction of the
`passed` fields of exactly the non-skipped modules, run in table order; the
issue and warning totals are the sums over exactly those modules; and the
whole report is independent of the results of skipped modules. -/
theorem claim5_holds : ∀ (skip : List String) (run : String → ModResult),
    overallPassed (runModules skip run)
        = (moduleOrder.filter (fun n => !skip.contains n)).all (fun n => (run n).passed)
    ∧ totalIssues (runModules skip run)
        = ((moduleOrder.filter (fun n => !skip.contains n)).map
            (fun n => (run n).issues.length)).sum
    ∧ totalWarnings (runModules skip run)
        = ((moduleOrder.filter (fun n => !skip.contains n)).map
            (fun n => (run n).warnings.length)).sum
    ∧ ∀ run2 : String → ModResult, (∀ n, skip.contains n = false → run n = run2 n) →
        runModules skip run = runModules skip run2 := by
  intro skip run
  have hrm : runModules skip run
      = (moduleOrder.filter (fun n => !skip.contains n)).map (fun n => (n, run n)) := by
    rw [runModules, runModules_fold skip run moduleOrder []]
    rfl
  refine ⟨?_, ?_, ?_, ?_⟩
  · rw [hrm, overallPassed]
    induction moduleOrder.filter (fun n => !skip.contains n) with
    | nil => rfl
    | cons n t ih => simp [ih]
  · rw [hrm, totalIssues, foldl_add_map]
    simp only [List.map_map, Nat.zero_add]
    rfl
  · rw [hrm, totalWarnings, foldl_add_map]
    simp only [List.map_map, Nat.zero_add]
    rfl
  · intro run2 hrun
    have hrm2 : runModules skip run2
        = (moduleOrder.filter (fun n => !skip.contains n)).map (fun n => (n, run2 n)) := by
      rw [runModules, runModules_fold skip run2 moduleOrder []]
      rfl
    rw [hrm, hrm2]
    refine List.map_congr_left ?_
    intro n hn
    have hns : skip.contains n = false := by
      have := (List.mem_filter.mp hn).2
      simpa using this
    rw [hrun n hns]

theorem claim5_witness :
    overallPassed (runModules ["auth"] (fun _ => ⟨true, [], []⟩)) = true := by
  have h := (claim5_holds ["auth"] (fun _ => ⟨true, [], []⟩)).1
  rw [h]
  decide

/-- Claim C1 counterexample: for the registration `app.get('/accounts', ...)`
with no auth token in its window, the path is classified sensitive and the
auth check fails, yet the validator emits exactly TWO missing-auth issues for
the single registration (the first two route patterns are identical), not the
claimed one. -/
theorem claim1_counterexample :
    isSensitiveRoute "/accounts" = true
    ∧ hasAuthMiddleware "app.get('/accounts', handler)" 1 = false
    ∧ (authIssues "app.get('/accounts', handler)" "routes.js").length = 2 := by
  refine ⟨by decide, by decide, by decide⟩

/-- Claim C1 (amended): a route file whose extraction yields a `/health`
route always satisfies the health-endpoint requirement (no health issue) —
and `app.get('/health', ...)` does extract such a route; and every sensitive
route registration with no auth context produces exactly two missing-auth
records per `app`/`router` pattern match (the duplicated first pattern) plus
one per `Route.` pattern match. -/
theorem claim1_amended :
    (∀ (codes : List String) (c : String) (r : Route),
        c ∈ codes → r ∈ extractRoutes c → r.path = "/health" → apiHealthIssues codes = [])
    ∧ (∃ r ∈ extractRoutes "app.get('/health', handler)", r.path = "/health")
    ∧ ∀ (code : String) (r : Route),
        isSensitiveRoute r.path = true → hasAuthMiddleware code r.line = false →
        List.count r (authVulnList code)
          = 2 * List.count r (scanRoutes ["app.", "router."] code.data)
            + List.count r (scanRoutes ["Route."] code.data) := by
  refine ⟨?_, ?_, ?_⟩
  · intro codes c r hc hr hp
    have hhealth : hasHealthEndpoint codes = true := by
      rw [hasHealthEndpoint, List.any_eq_true]
      refine ⟨c, hc, ?_⟩
      rw [List.any_eq_true]
      exact ⟨r, hr, by rw [hp]; decide⟩
    rw [apiHealthIssues, if_pos hhealth]
  · decide
  · intro code r hs ha
    have hp : (isSensitiveRoute r.path && !hasAuthMiddleware code r.line) = true := by
      rw [hs, ha]
      rfl
    rw [authVulnList, extractRoutes, List.filter_append, List.filter_append,
      List.count_append, List.count_append,
      count_filter_pos _ r hp, count_filter_pos _ r hp]
    omega

theorem claim1_witness :
    apiHealthIssues ["app.get('/health', handler)"] = [] :=
  claim1_amended.1 ["app.get('/health', handler)"] "app.get('/health', handler)"
    ⟨"GET", "/health", 1⟩ (by decide) (by decide) rfl

/-- Claim C6: when `.env` exists and every key of `.env.example` also occurs
among the `.env` keys, no issue of the env validator starts with the
`MISSING:` prefix. -/
theorem claim6_holds : ∀ (envExampleExists : Bool)
    (expected actual : List (String × String)) (s : String),
    (∀ k ∈ expected.map Prod.fst, k ∈ actual.map Prod.fst) →
    s ∈ envIssues true envExampleExists expected actual →
    isPrefixL "MISSING:".data s.data = false := by
  intro exEx expected actual s hsub hs
  unfold envIssues at hs
  have hchunk2 : (((if exEx then expected else []).map Prod.fst).filter
      (fun k => !(actual.any (fun p => p.1 = k)))) = [] := by
    rw [List.filter_eq_nil_iff]
    intro k hk
    have hk2 : k ∈ expected.map Prod.fst := by
      cases exEx
      · simp at hk
      · exact hk
    rcases List.mem_map.mp (hsub k hk2) with ⟨p, hp, rfl⟩
    intro hcontra
    have hany : actual.any (fun q => q.1 = p.1) = true :=
      List.any_eq_true.mpr ⟨p, hp, by simp⟩
    rw [hany] at hcontra
    cases hcontra
  rw [if_pos rfl, hchunk2] at hs
  simp only [List.map_nil, List.nil_append] at hs
  rcases List.mem_flatMap.mp hs with ⟨k, _, hsk⟩
  unfold secretKeyIssues at hsk
  split_ifs at hsk with h1 h2
  · rcases List.mem_singleton.mp hsk with rfl
    rw [empty_issue_head k, show ("MISSING:").data = 'M' :: "ISSING:".data from rfl]
    exact isPrefixL_false_head _ _ (by decide)
  · rcases List.mem_singleton.mp hsk with rfl
    rw [weak_issue_head k, show ("MISSING:").data = 'M' :: "ISSING:".data from rfl]
    exact isPrefixL_false_head _ _ (by decide)
  · cases hsk

theorem claim6_witness :
    isPrefixL "MISSING:".data ("WEAK SECRET: A_SECRET (length < 32)").data = false :=
  claim6_holds true [("A_SECRET", "x")] [("A_SECRET", "x")]
    "WEAK SECRET: A_SECRET (length < 32)" (by decide) (by decide)

/-- Claim C3 counterexample: a `SECRET`-named key with the empty value has
value length 0 < 32, yet the validator emits an `EMPTY` issue and zero
`WEAK SECRET` issues, against the claimed exactly-one. -/
theorem claim3_counterexample :
    (("" : String).length < 32)
    ∧ List.count "WEAK SECRET: APP_SECRET (length < 32)"
        (envIssues true true [] [("APP_SECRET", "")]) = 0
    ∧ envIssues true true [] [("APP_SECRET", "")] = ["EMPTY: APP_SECRET is empty"] := by
  refine ⟨by decide, by decide, by decide⟩

/-- Claim C3 (amended): for a parsed key containing `SECRET` with looked-up
value `v`, the env validator emits exactly one `WEAK SECRET` issue when `v`
is non-empty and shorter than 32 characters, and none otherwise — in
particular an empty value yields an `EMPTY` issue instead. -/
theorem claim3_amended : ∀ (envExists envExampleExists : Bool)
    (expected actual : List (String × String)) (k v : String),
    (actual.map Prod.fst).Nodup →
    lookupA actual k = some v →
    containsL k.data "SECRET".data = true →
    List.count ("WEAK SECRET: " ++ k ++ " (length < 32)")
        (envIssues envExists envExampleExists expected actual)
      = if v ≠ "" ∧ v.length < 32 then 1 else 0 := by
  intro ee exe expected actual k v hnd hlk hsec
  have hW := weak_issue_head k
  unfold envIssues
  rw [List.count_append, List.count_append]
  have hc1 : List.count ("WEAK SECRET: " ++ k ++ " (length < 32)")
      (if ee then [] else ["MISSING: .env file not found"]) = 0 := by
    cases ee
    · exact count_singleton_ne (string_ne_of_head rfl hW (by decide))
    · rfl
  have hc2 : List.count ("WEAK SECRET: " ++ k ++ " (length < 32)")
      ((((if exe then expected else []).map Prod.fst).filter
          (fun k2 => !(actual.any (fun p => p.1 = k2)))).map
        (fun k2 => "MISSING: " ++ k2)) = 0 := by
    rw [List.count_eq_zero]
    intro hmem
    rcases List.mem_map.mp hmem with ⟨k2, _, heq⟩
    exact string_ne_of_head (missing_issue_head k2) hW (by decide) heq
  rw [hc1, hc2]
  simp only [Nat.zero_add]
  rw [List.count_flatMap]
  have hmemk : k ∈ (actual.map Prod.fst).filter secretish :=
    List.mem_filter.mpr ⟨lookupA_mem_keys actual k v hlk, secretish_of_contains k hsec⟩
  have hndf : ((actual.map Prod.fst).filter secretish).Nodup := hnd.filter _
  have hz : ∀ a ∈ (actual.map Prod.fst).filter secretish, a ≠ k →
      (List.count ("WEAK SECRET: " ++ k ++ " (length < 32)")
        ∘ fun k2 => secretKeyIssues k2 ((lookupA actual k2).getD "")) a = 0 := by
    intro a _ hak
    simp only [Function.comp]
    unfold secretKeyIssues
    split_ifs with h1 h2
    · exact count_singleton_ne (string_ne_of_head (empty_issue_head a) hW (by decide))
    · exact count_singleton_ne (weak_secret_ne a k hak)
    · rfl
  rw [sum_map_eq_single
    (List.count ("WEAK SECRET: " ++ k ++ " (length < 32)")
      ∘ fun k2 => secretKeyIssues k2 ((lookupA actual k2).getD ""))
    k ((actual.map Prod.fst).filter secretish) hndf hmemk hz]
  simp only [Function.comp]
  rw [hlk]
  simp only [Option.getD_some]
  unfold secretKeyIssues
  by_cases hv0 : v = ""
  · rw [if_pos hv0, if_neg (by simp [hv0])]
    exact count_singleton_ne (string_ne_of_head (empty_issue_head k) hW (by decide))
  · rw [if_neg hv0]
    by_cases hvl : v.length < 32
    · have hcond : (decide (v.length < 32) && containsL (upperL k.data) "SECRET".data) = true := by
        simp [hvl, upper_contains_secret k hsec]
      rw [if_pos hcond, if_pos (show v ≠ "" ∧ v.length < 32 from ⟨hv0, hvl⟩)]
      simp [List.count_cons]
    · have hcond : (decide (v.length < 32) && containsL (upperL k.data) "SECRET".data) = false := by
        simp [hvl]
      rw [if_neg (by rw [hcond]; simp), if_neg (fun hcontra => hvl hcontra.2)]
      rfl

theorem claim3_witness :
    List.count "WEAK SECRET: JWT_SECRET (length < 32)"
        (envIssues true true [] [("JWT_SECRET", "short")])
      = if ("short" : String) ≠ "" ∧ ("short" : String).length < 32 then 1 else 0 :=
  claim3_amended true true [] [("JWT_SECRET", "short")] "JWT_SECRET" "short"
    (by decide) (by decide) (by decide)

/-- Claim C8: the env-file parser (i) stores only keys that are fixed points
of trimming (no leading or trailing whitespace), (ii) is unchanged by
deleting blank lines and `#` comment lines (they contribute no entry),
(iii) strips the surrounding quotes of a quoted value, and (iv) resolves a
repeated key to the value of its last occurrence. -/
theorem claim8_holds :
    (∀ (lines : List (List Char)) (p : List Char × List Char),
        p ∈ parseEnvLinesL lines → jsTrimL p.1 = p.1)
    ∧ (∀ lines : List (List Char),
        parseEnvLinesL (lines.filter (fun l => !ignorableLine l)) = parseEnvLinesL lines)
    ∧ (∀ (k v : List Char) (q : Char), (q = '"' ∨ q = '\'') →
        k ≠ [] → jsTrimL k = k → '=' ∉ k → k.head? ≠ some '#' → '\n' ∉ v →
        parseEnvLinesL [k ++ '=' :: q :: (v ++ [q])] = [(k, v)])
    ∧ ∀ (lines : List (List Char)) (k : List Char),
        lookupL (parseEnvLinesL lines) k = lastOccurrenceValue lines k := by
  refine ⟨?_, ?_, ?_, ?_⟩
  · intro lines p hp
    exact parse_fold_keys_trimmed lines [] (by intro q hq; cases hq) p hp
  · intro lines
    exact parse_fold_filter lines []
  · intro k v q hq hk0 hkt hkeq hkh hv
    unfold parseEnvLinesL
    rw [List.foldl_cons, List.foldl_nil]
    unfold envStepL
    rw [parseLineL_quoted k v q hq hk0 hkt hkeq hkh hv]
    rfl
  · intro lines k
    unfold parseEnvLinesL lastOccurrenceValue
    exact lookup_parse_fold k lines []

theorem claim8_witness :
    parseEnvLinesL ["KEY".data ++ '=' :: '"' :: ("value".data ++ ['"'])]
      = [("KEY".data, "value".data)] :=
  claim8_holds.2.2.1 "KEY".data "value".data '"' (Or.inl rfl)
    (by decide) (by decide) (by decide) (by decide) (by decide)
